import Mathlib

/-!
Verification of the pacman analysis pipeline (pacman_brain.py and
utilities/data_structures.py) against its natural-language specification.

The numeric code is embedded shallowly: machine floats become exact
rationals (ℚ), numpy arrays become Lean lists, and fallible code paths
(python exceptions such as IndexError / ValueError / StopIteration /
AssertionError) become Option/Except values.  Every definition below is
translated from the python source; the doc comment of each definition
names the function and lines it embeds.
-/

/-- Embeds `np.digitize(x, edges)` (default `right=False`) for a monotone
non-decreasing edge list: the result is `np.searchsorted(edges, x, side =
right)`, i.e. the number of edges `e` with `e ≤ x`.  Callers are
responsible for the monotonicity guard that numpy enforces (numpy raises
`ValueError` for non-monotone bins). -/
def digitizeIdx (edges : List ℚ) (x : ℚ) : ℤ :=
  edges.countP (fun e => decide (e ≤ x))

/-- Embeds `pacman_brain.py` lines 42-43: `spike_bin_edges =
np.append(ephys_alignment, ephys_alignment[-1]+1+np.arange(2)) - 0.5`,
given `last = ephys_alignment[-1]`. -/
def spikeBinEdges (ephys_alignment : List ℤ) (last : ℤ) : List ℚ :=
  (ephys_alignment ++ [last + 1, last + 2]).map (fun a : ℤ => (a : ℚ) - 1/2)

/-- Embeds `pacman_brain.py` line 49: `np.digitize(s, spike_bin_edges) - 1`
for one spike index `s`. -/
def spikeBin (ephys_alignment : List ℤ) (last : ℤ) (s : ℤ) : ℤ :=
  digitizeIdx (spikeBinEdges ephys_alignment last) (s : ℚ) - 1

/-- Embeds `pacman_brain.py` lines 49-52: digitize all spike indices and
keep the bins inside the trial bounds `[0, len(ephys_alignment))`. -/
def trialSpikeBins (ephys_alignment : List ℤ) (last : ℤ)
    (neuron_spike_indices : List ℤ) : List ℕ :=
  ((neuron_spike_indices.map (fun s => spikeBin ephys_alignment last s)).filter
    (fun b => decide (0 ≤ b) && decide (b < (ephys_alignment.length : ℤ)))).map Int.toNat

/-- Embeds `pacman_brain.py` lines 55-56: `spike_raster =
np.zeros(len(ephys_alignment), dtype=bool); spike_raster[spike_bins] = 1`
sets the raster true exactly at the retained bin indices. -/
def rasterOfBins (L : ℕ) (kept : List ℕ) : List Bool :=
  (List.range L).map (fun i => decide (i ∈ kept))

/-- Embeds `NeuronSpikeRaster.make` (`pacman_brain.py` lines 36-56), the
pure computation from the fetched inputs to the stored raster.
`none` models a raised python exception: `ephys_alignment[-1]` raises
`IndexError` on an empty array, and `np.digitize` raises `ValueError`
unless the bin edges are monotone (with the two appended trailing edges
the edge list can never be monotonically decreasing, so the increasing
check is the only live one). -/
def neuronSpikeRaster (ephys_alignment neuron_spike_indices : List ℤ) :
    Option (List Bool) :=
  match ephys_alignment.getLast? with
  | none => none
  | some last =>
    if (spikeBinEdges ephys_alignment last).Chain' (· ≤ ·) then
      some (rasterOfBins ephys_alignment.length
        (trialSpikeBins ephys_alignment last neuron_spike_indices))
    else none

/-- Embeds `NeuronPsth.make` (`pacman_brain.py` lines 146-152):
`fetch('neuron_rate').mean(axis=0)` stacks the per-trial rate arrays and
takes the elementwise mean, i.e. the elementwise sum divided by the trial
count.  The empty fetch (numpy mean of an empty stack, a NaN warning) is
modelled as the empty list; the claims only concern non-empty fetches. -/
def neuronPsth (rates : List (List ℚ)) : List ℚ :=
  match rates with
  | [] => []
  | r :: rs =>
    ((rs.foldl (fun acc row => acc.zipWith (· + ·) row) r).map
      (fun x => x / (rates.length : ℚ)))

/-- Auxiliary: `getD` distributes over `zipWith (+)` inside the bounds. -/
theorem getD_zipWith_add (a b : List ℚ) (i : ℕ) (hl : b.length = a.length)
    (hi : i < a.length) :
    (a.zipWith (· + ·) b).getD i 0 = a.getD i 0 + b.getD i 0 := by
  induction a generalizing b i with
  | nil => simp at hi
  | cons x xs ih =>
    cases b with
    | nil => simp at hl
    | cons y ys =>
      cases i with
      | zero => simp
      | succ n =>
        simp only [List.zipWith_cons_cons, List.getD_cons_succ]
        exact ih ys n (by simpa using hl) (by simpa using hi)

/-- Auxiliary: `getD` commutes with a pointwise division map. -/
theorem getD_map_div (l : List ℚ) (n : ℚ) (i : ℕ) :
    (l.map (fun x => x / n)).getD i 0 = l.getD i 0 / n := by
  induction l generalizing i with
  | nil => simp
  | cons x xs ih =>
    cases i with
    | zero => simp
    | succ m =>
      simp only [List.map_cons, List.getD_cons_succ]
      exact ih m

/-- Auxiliary: the elementwise-sum fold preserves the accumulator length
when every summand has that length. -/
theorem foldl_zipWith_length (rs : List (List ℚ)) (acc : List ℚ)
    (h : ∀ r ∈ rs, r.length = acc.length) :
    (rs.foldl (fun a row => a.zipWith (· + ·) row) acc).length = acc.length := by
  induction rs generalizing acc with
  | nil => rfl
  | cons r rs ih =>
    have hlen : (acc.zipWith (· + ·) r).length = acc.length := by
      rw [List.length_zipWith, h r (by simp), min_self]
    simp only [List.foldl_cons]
    rw [ih (acc.zipWith (· + ·) r) (fun r' hr' => by rw [hlen]; exact h r' (by simp [hr'])),
      hlen]

/-- Auxiliary: the elementwise-sum fold computes, at each in-bounds index,
the accumulator entry plus the sum of the rows' entries. -/
theorem foldl_zipWith_getD (rs : List (List ℚ)) (acc : List ℚ) (i : ℕ)
    (h : ∀ r ∈ rs, r.length = acc.length) (hi : i < acc.length) :
    (rs.foldl (fun a row => a.zipWith (· + ·) row) acc).getD i 0
      = acc.getD i 0 + (rs.map (fun r => r.getD i 0)).sum := by
  induction rs generalizing acc with
  | nil => simp
  | cons r rs ih =>
    have hlen : (acc.zipWith (· + ·) r).length = acc.length := by
      rw [List.length_zipWith, h r (by simp), min_self]
    simp only [List.foldl_cons, List.map_cons, List.sum_cons]
    rw [ih (acc.zipWith (· + ·) r)
      (fun r' hr' => by rw [hlen]; exact h r' (by simp [hr'])) (by rw [hlen]; exact hi)]
    rw [getD_zipWith_add acc r i (h r (by simp)) hi]
    ring

/-- C1: the PSTH of a non-empty collection of equal-length per-trial rate
sequences has that common length, and its entry at every in-bounds index
is the arithmetic mean (sum divided by trial count) of the trials'
entries at that index. -/
theorem neuronPsth_elementwise_mean (rates : List (List ℚ)) (L : ℕ)
    (hne : rates ≠ []) (hlen : ∀ r ∈ rates, r.length = L) :
    (neuronPsth rates).length = L ∧
    ∀ i < L, (neuronPsth rates).getD i 0
      = (rates.map (fun r => r.getD i 0)).sum / (rates.length : ℚ) := by
  match rates with
  | [] => exact absurd rfl hne
  | r :: rs =>
    have hr : r.length = L := hlen r (by simp)
    have hrs : ∀ r' ∈ rs, r'.length = r.length := fun r' h' => by
      rw [hlen r' (by simp [h']), hr]
    refine ⟨?_, ?_⟩
    · simp only [neuronPsth, List.length_map]
      rw [foldl_zipWith_length rs r hrs, hr]
    · intro i hi
      have hi' : i < r.length := by rw [hr]; exact hi
      simp only [neuronPsth]
      rw [getD_map_div, foldl_zipWith_getD rs r i hrs hi']
      simp

/-- Witness for C1, at the spec's example: rates [1,2],[3,4],[5,0] give
PSTH entries 3 and 2. -/
theorem neuronPsth_elementwise_mean_witness :
    ((neuronPsth [[1,2],[3,4],[5,0]]).length = 2 ∧
      ∀ i < 2, (neuronPsth [[1,2],[3,4],[5,0]]).getD i 0
        = (([[1,2],[3,4],[5,0]] : List (List ℚ)).map (fun r => r.getD i 0)).sum
          / (([[1,2],[3,4],[5,0]] : List (List ℚ)).length : ℚ)) ∧
    neuronPsth [[1,2],[3,4],[5,0]] = [3,2] :=
  ⟨neuronPsth_elementwise_mean [[1,2],[3,4],[5,0]] 2 (by simp)
      (by intro r hr; fin_cases hr <;> rfl),
    by norm_num [neuronPsth]⟩

/-- Auxiliary: over a duplicate-free list, the count of entries belonging
to `kept` is at most the length of `kept`. -/
theorem countP_mem_le_length (l kept : List ℕ) (hl : l.Nodup) :
    l.countP (fun i => decide (i ∈ kept)) ≤ kept.length := by
  rw [List.countP_eq_length_filter]
  have hnd : (l.filter (fun i => decide (i ∈ kept))).Nodup := hl.filter _
  have hsub : (l.filter (fun i => decide (i ∈ kept))).toFinset ⊆ kept.toFinset := by
    intro x hx
    rw [List.mem_toFinset] at hx ⊢
    have hmem := List.of_mem_filter hx
    simpa using hmem
  calc (l.filter (fun i => decide (i ∈ kept))).length
      = (l.filter (fun i => decide (i ∈ kept))).toFinset.card := by
        rw [List.toFinset_card_of_nodup hnd]
    _ ≤ kept.toFinset.card := Finset.card_le_card hsub
    _ ≤ kept.length := kept.toFinset_card_le

/-- C2 counterexample to the claim as stated over *every* alignment
sequence: on the empty alignment, `ephys_alignment[-1]` raises
`IndexError` (modelled `none`) instead of returning a length-0 raster;
and on a non-monotone alignment `np.digitize` raises `ValueError`. -/
theorem neuronSpikeRaster_empty_alignment_cex :
    neuronSpikeRaster [] [0] = none ∧ neuronSpikeRaster [5,0,9] [0] = none := by
  refine ⟨rfl, ?_⟩
  norm_num [neuronSpikeRaster, spikeBinEdges, List.chain'_cons]

/-- C2 (amended to non-empty, monotone alignments): the raster builder
returns a boolean sequence of length exactly the alignment length, and
the number of true entries is at most the number of spike indices whose
assigned bin falls within the trial bounds `[0, L)`. -/
theorem neuronSpikeRaster_length_and_count (align spikes : List ℤ)
    (hne : align ≠ []) (hmono : align.Chain' (· ≤ ·)) :
    ∃ r, neuronSpikeRaster align spikes = some r ∧
      r.length = align.length ∧
      r.countP id ≤ spikes.countP (fun s =>
        decide (0 ≤ spikeBin align (align.getLast hne) s) &&
        decide (spikeBin align (align.getLast hne) s < (align.length : ℤ))) := by
  have hlast : align.getLast? = some (align.getLast hne) :=
    List.getLast?_eq_getLast align hne
  have happ : (align ++ [align.getLast hne + 1, align.getLast hne + 2]).Chain'
      (· ≤ ·) := by
    rw [List.chain'_append]
    refine ⟨hmono, by simp [List.chain'_cons], ?_⟩
    intro x hx y hy
    rw [List.getLast?_eq_getLast align hne] at hx
    simp only [Option.mem_def, Option.some_inj] at hx
    simp only [List.head?_cons, Option.mem_def, Option.some_inj] at hy
    omega
  have hchain : (spikeBinEdges align (align.getLast hne)).Chain' (· ≤ ·) := by
    unfold spikeBinEdges
    exact List.chain'_map_of_chain' (fun a : ℤ => (a : ℚ) - 1/2)
      (fun a b hab => by
        show (a : ℚ) - 1/2 ≤ (b : ℚ) - 1/2
        have hq : (a : ℚ) ≤ (b : ℚ) := by exact_mod_cast hab
        linarith) happ
  have heq : neuronSpikeRaster align spikes
      = some (rasterOfBins align.length
        (trialSpikeBins align (align.getLast hne) spikes)) := by
    unfold neuronSpikeRaster
    rw [hlast]
    exact if_pos hchain
  refine ⟨_, heq, ?_, ?_⟩
  · simp [rasterOfBins]
  · unfold rasterOfBins
    rw [List.countP_map]
    have hcount := countP_mem_le_length (List.range align.length)
      (trialSpikeBins align (align.getLast hne) spikes) (List.nodup_range _)
    refine le_trans (le_of_eq rfl) (le_trans hcount (le_of_eq ?_))
    unfold trialSpikeBins
    rw [List.length_map, ← List.countP_eq_length_filter, List.countP_map]
    rfl

/-- Witness for C2: a concrete non-empty monotone alignment. -/
theorem neuronSpikeRaster_length_and_count_witness :
    ∃ r, neuronSpikeRaster [3,4,5] [4,4,9] = some r ∧
      r.length = ([3,4,5] : List ℤ).length ∧
      r.countP id ≤ ([4,4,9] : List ℤ).countP (fun s =>
        decide (0 ≤ spikeBin [3,4,5] (([3,4,5] : List ℤ).getLast (by simp)) s) &&
        decide (spikeBin [3,4,5] (([3,4,5] : List ℤ).getLast (by simp)) s
          < (([3,4,5] : List ℤ).length : ℤ))) :=
  neuronSpikeRaster_length_and_count [3,4,5] [4,4,9] (by simp)
    (by simp [List.chain'_cons])

/-- Embeds `max` accumulation of a numpy reduction (`np.max`); numpy
raises on an empty array, and every use below is guarded by nonemptiness
of the source vector (the `[]` value 0 is never reached by the claims). -/
def listMax (l : List ℚ) : ℚ :=
  match l with
  | [] => 0
  | x :: xs => xs.foldl max x

/-- Embeds `np.min` in the same way as `listMax`. -/
def listMin (l : List ℚ) : ℚ :=
  match l with
  | [] => 0
  | x :: xs => xs.foldl min x

/-- Embeds `np.ptp` (peak-to-peak, max minus min), used in
`pacman_brain.py` line 96 and `data_structures.py` line 152. -/
def rowPtp (l : List ℚ) : ℚ := listMax l - listMin l

/-- Embeds python's builtin `round` (banker's rounding: ties go to the
even integer), applied in `pacman_brain.py` line 96. -/
def roundHalfEven (q : ℚ) : ℤ :=
  if q - q.floor < 1/2 then q.floor
  else if q - q.floor > 1/2 then q.floor + 1
  else if 2 ∣ q.floor then q.floor else q.floor + 1

/-- Embeds `np.linspace(a, b, num)` with the default inclusive endpoint:
`num` evenly spaced samples from `a` to `b`. -/
def linspace (a b : ℚ) (num : ℕ) : List ℚ :=
  if num = 0 then []
  else if num = 1 then [a]
  else (List.range num).map (fun i => a + i * (b - a) / ((num : ℚ) - 1))

/-- Embeds `pacman_brain.py` line 99: `time_bin_edges = np.append(t_beh,
t_beh[-1]+(1+np.arange(2))/fs_beh) - 1/(2*fs_beh)`, given `tl =
t_beh[-1]`. -/
def timeBinEdges (t_beh : List ℚ) (tl fs_beh : ℚ) : List ℚ :=
  (t_beh ++ [tl + 1/fs_beh, tl + 2/fs_beh]).map (fun t => t - 1/(2*fs_beh))

/-- Embeds `NeuronRate.make` (`pacman_brain.py` lines 83-124), the pure
computation from the fetched inputs to the stored rate.  The filter
registry is an external collaborator (spec section 6); the selected
implementation enters as the function argument `filt`, and `fs_beh *
filter(...)` is the elementwise scaling of its output.  `none` models a
raised python exception: indexing an empty `t_beh`, a negative
`np.linspace` sample count, a boolean mask whose length differs from the
masked array's, or non-monotone `np.digitize` bin edges.  The model
assumes the schema invariant of positive sample rates: the IEEE
divide-by-zero corner (`fs_beh = 0`) is not modelled, since no claim
reaches it (the zero-spike claim never enters this branch). -/
def neuronRate (spike_raster : List Bool) (t_beh : List ℚ) (fs_beh fs_ephys : ℚ)
    (filt : List Bool → ℚ → List ℚ) : Option (List ℚ) :=
  if spike_raster.any id then
    match t_beh.head?, t_beh.getLast? with
    | some t0, some tl =>
      let n : ℤ := roundHalfEven (fs_ephys * rowPtp t_beh)
      if n + 1 < 0 then none
      else
        let t_ephys := linspace t0 tl (1 + n).toNat
        if t_ephys.length = spike_raster.length then
          let spikeTimes := (t_ephys.zip spike_raster).filterMap
            (fun p => if p.2 then some p.1 else none)
          let edges := timeBinEdges t_beh tl fs_beh
          if edges.Chain' (· ≤ ·) then
            let spike_bins := spikeTimes.map (fun x => digitizeIdx edges x - 1)
            let kept := (spike_bins.filter
              (fun b => decide (0 ≤ b) && decide (b < (t_beh.length : ℤ)))).map Int.toNat
            let raster' := rasterOfBins t_beh.length kept
            some ((filt raster' fs_beh).map (fun x => fs_beh * x))
          else none
        else none
    | _, _ => none
  else some (List.replicate t_beh.length 0)

/-- C3: on an all-false raster the Rate Estimator short-circuits to an
all-zero sequence whose length is the length of the behavioral time
vector, for every time vector, every filter implementation and every
pair of sample rates; the filter argument never influences the result. -/
theorem neuronRate_zero_raster (spike_raster : List Bool) (t_beh : List ℚ)
    (fs_beh fs_ephys : ℚ) (filt : List Bool → ℚ → List ℚ)
    (h : ∀ b ∈ spike_raster, b = false) :
    neuronRate spike_raster t_beh fs_beh fs_ephys filt
      = some (List.replicate t_beh.length 0) := by
  have hany : spike_raster.any id = false := by
    simp only [List.any_eq_false]
    intro b hb
    simp [h b hb]
  unfold neuronRate
  rw [hany]
  rfl

/-- Witness for C3 at a concrete all-false raster, time vector, sample
rates and a filter implementation that would return nonzero values were
it ever applied. -/
theorem neuronRate_zero_raster_witness :
    neuronRate [false, false] [0, 1/2, 1] 1000 30000
      (fun r _ => r.map (fun _ => 7)) = some (List.replicate 3 0) :=
  neuronRate_zero_raster [false, false] [0, 1/2, 1] 1000 30000
    (fun r _ => r.map (fun _ => 7)) (by simp)

/-- Embeds `TrialAveragedPopulationState._rebin` (`data_structures.py`
lines 80-85).  `t_bins` is the list of consecutive midpoints of `t_new`;
the code then pads it with `-np.Inf` in front and `np.Inf` behind, so
`np.digitize(x, padded)` equals `1 + (number of midpoints ≤ x)` for every
finite `x` — the infinite edges need no explicit representation.
`t_old[raster]` is the boolean mask selecting the old sample times at
the true raster entries, and the final comprehension marks index `i`
true iff `i` occurs among the (not decremented) digitize results.
The `fs_new` argument is accepted and ignored exactly as in the
source. -/
def rebinBool (raster : List Bool) (t_old t_new : List ℚ) (fs_new : ℚ) : List Bool :=
  let t_bins := t_new.zipWith (fun a b => (a + b) / 2) t_new.tail
  let spikeTimes := (t_old.zip raster).filterMap
    (fun p => if p.2 then some p.1 else none)
  let new_spike_indices := spikeTimes.map
    (fun x => 1 + t_bins.countP (fun m => decide (m ≤ x)))
  (List.range t_new.length).map (fun i => decide (i ∈ new_spike_indices))

/-- C4 (code bug): rebinning a raster already sampled on the target grid
onto that same grid does not reproduce it.  The digitize result is never
decremented (unlike the two other `np.digitize` call sites in
`pacman_brain.py`, lines 49 and 100, which both subtract 1), so every
spike moves one bin later and a spike in the last bin is dropped: on the
grid [0,1] the raster [true,false] rebins to [false,true] and
[false,true] rebins to [false,false]. -/
theorem rebin_shifts_spikes :
    rebinBool [true, false] [0, 1] [0, 1] 1000 = [false, true] ∧
    rebinBool [false, true] [0, 1] [0, 1] 1000 = [false, false] ∧
    rebinBool [true, false] [0, 1] [0, 1] 1000 ≠ [true, false] := by
  refine ⟨?_, ?_, ?_⟩ <;>
    norm_num [rebinBool, List.countP_cons, List.range_succ]

/-- Embeds the filter-implementation lookup of `NeuronRate.make`
(`pacman_brain.py` lines 107-109): `next(part for part in filter_parts
if part & filter_key)`.  A part is modelled as a predicate on the
filter-parameter key paired with its implementation identifier;
`List.find?` is precisely python's `next` over the filtering generator,
and `none` models the bare `StopIteration` raised when no part
matches. -/
def filterLookup (parts : List ((ℕ → Bool) × ℕ)) (filter_key : ℕ) : Option ℕ :=
  (parts.find? (fun part => part.1 filter_key)).map (fun part => part.2)

/-- C5 counterexample to the claim as stated: with two registered parts
that both match key 0, the lookup is ambiguous, yet no configuration
error is raised — the first implementation is returned silently. -/
theorem filterLookup_ambiguous_cex :
    filterLookup [(fun _ => true, 1), (fun _ => true, 2)] 0 = some 1 ∧
    filterLookup [(fun _ => true, 1), (fun _ => true, 2)] 0 ≠ none := by
  refine ⟨rfl, ?_⟩
  simp [filterLookup]

/-- C5 (amended): the lookup fails (bare `StopIteration`, with no message
naming the identifier) exactly when no registered part matches the
requested key, and otherwise silently returns the first matching
implementation, ignoring any later matches. -/
theorem filterLookup_first_match (parts : List ((ℕ → Bool) × ℕ)) (k : ℕ) :
    (filterLookup parts k = none ↔ ∀ p ∈ parts, p.1 k = false) ∧
    (∀ l₁ p l₂, parts = l₁ ++ p :: l₂ → (∀ q ∈ l₁, q.1 k = false) →
      p.1 k = true → filterLookup parts k = some p.2) := by
  constructor
  · unfold filterLookup
    rw [Option.map_eq_none', List.find?_eq_none]
    constructor
    · intro h p hp
      have hq := h p hp
      simpa using hq
    · intro h p hp
      simp [h p hp]
  · intro l₁ p l₂ hparts hmiss hp
    subst hparts
    unfold filterLookup
    induction l₁ with
    | nil =>
      rw [List.nil_append, List.find?_cons_of_pos l₂ hp]
      rfl
    | cons q qs ih =>
      rw [List.cons_append, List.find?_cons_of_neg _ (by simp [hmiss q (by simp)])]
      exact ih (fun q' hq' => hmiss q' (by simp [hq']))

/-- Witness for C5: the first of two matching parts is selected when an
earlier non-matching part precedes it. -/
theorem filterLookup_first_match_witness :
    filterLookup [(fun _ => false, 7), (fun _ => true, 9)] 0 = some 9 :=
  (filterLookup_first_match [(fun _ => false, 7), (fun _ => true, 9)] 0).2
    [(fun _ => false, 7)] (fun _ => true, 9) [] rfl
    (by intro q hq; simp at hq; rw [hq]) rfl

/-- The assembled labeled data set of
`TrialAveragedPopulationState` (`data_structures.py`): the compound
condition-time coordinate (one `(condition_id, time)` pair per column)
together with one named data plane per attribute, each a list of member
rows over those columns. -/
structure DataSet where
  coords : List (ℤ × ℚ)
  vars : List (String × List (List ℚ))
deriving DecidableEq

/-- Embeds `list(self.data_set.data_vars)`. -/
def varNames (ds : DataSet) : List String := ds.vars.map (fun nv => nv.1)

/-- Embeds `np.mean(axis=1)` over one member row. -/
def rowMean (row : List ℚ) : ℚ := row.sum / (row.length : ℚ)

/-- Embeds the per-member statistic of a reference variable
(`data_means[reference_var]` resp. `data_ranges[reference_var]`): the
statistic applied to the rows of the variable named `rv`. -/
def refStats (ds : DataSet) (stat : List ℚ → ℚ) (rv : String) : List ℚ :=
  ((ds.vars.find? (fun nv => nv.1 == rv)).map (fun nv => nv.2.map stat)).getD []

/-- Embeds the `only_vars` validation shared by `mean_center` and
`normalize` (`data_structures.py` lines 125-129 and 146-150):
`unrecognized_variables = list(set(only_vars) - set(data_vars))`, then
`assert not any(unrecognized_variables), 'Attributes ' +
' '.join(['\x7b\x7d']*len(unrecognized_variables)) + ' not found in data set'`.
Python's `any` on a list of strings tests truthiness, i.e. non-emptiness
of each string; the assertion message is built by joining literal
`'\x7b\x7d'` placeholders — `.format` is never called, so the offending
names never enter the message.  On success the active variables are
`list(set(data_vars) & set(only_vars))` (order immaterial: the
per-variable updates are independent). -/
def selectVars (allVars onlyVars : List String) : Except String (List String) :=
  let unrecognized := (onlyVars.filter (fun v => decide (v ∉ allVars))).dedup
  if unrecognized.any (fun s => !s.isEmpty) then
    Except.error ("Attributes "
      ++ String.intercalate (" ") (List.replicate unrecognized.length ("\x7b\x7d"))
      ++ " not found in data set")
  else Except.ok (allVars.filter (fun v => decide (v ∈ onlyVars)))

/-- Embeds `TrialAveragedPopulationState.mean_center` (`data_structures.py`
lines 120-138) as a function from the working data set to the new
working data set; `Except.error` models a raised `AssertionError` with
its message (a failed assert fires before any mutation).  All
per-member means are computed from the pre-update data set, exactly as
the `data_means` dict is materialized before the update loop. -/
def meanCenterOp (ds : DataSet) (onlyVars : Option (List String))
    (referenceVar : Option String) : Except String DataSet :=
  let checked : Except String (List String) :=
    match onlyVars with
    | none => Except.ok (varNames ds)
    | some ov => selectVars (varNames ds) ov
  match checked with
  | Except.error e => Except.error e
  | Except.ok dataVars =>
    let ownMeans : String × List (List ℚ) → List ℚ := fun nv => nv.2.map rowMean
    let checkedMeans : Except String (String × List (List ℚ) → List ℚ) :=
      match referenceVar with
      | none => Except.ok ownMeans
      | some rv =>
        if rv ∈ dataVars then Except.ok (fun _ => refStats ds rowMean rv)
        else Except.error ("Reference variable " ++ rv ++ " not found in data set")
    match checkedMeans with
    | Except.error e => Except.error e
    | Except.ok means =>
      Except.ok { ds with vars := ds.vars.map (fun nv =>
        if nv.1 ∈ dataVars then
          (nv.1, (nv.2.zip (means nv)).map (fun rm => rm.1.map (fun x => x - rm.2)))
        else nv) }

/-- Embeds `TrialAveragedPopulationState.normalize` (`data_structures.py`
lines 140-159), structured exactly like `meanCenterOp` but dividing each
member row by `soft_factor + np.ptp(row)` (the cross-condition
peak-to-peak range).  Division is exact rational division here; the IEEE
divide-by-zero corner of a zero range is modelled separately by
`normalizeRowNp` below. -/
def normalizeOp (ds : DataSet) (onlyVars : Option (List String))
    (referenceVar : Option String) (soft_factor : ℚ) : Except String DataSet :=
  let checked : Except String (List String) :=
    match onlyVars with
    | none => Except.ok (varNames ds)
    | some ov => selectVars (varNames ds) ov
  match checked with
  | Except.error e => Except.error e
  | Except.ok dataVars =>
    let ownRanges : String × List (List ℚ) → List ℚ := fun nv => nv.2.map rowPtp
    let checkedRanges : Except String (String × List (List ℚ) → List ℚ) :=
      match referenceVar with
      | none => Except.ok ownRanges
      | some rv =>
        if rv ∈ dataVars then Except.ok (fun _ => refStats ds rowPtp rv)
        else Except.error ("Reference variable " ++ rv ++ " not found in data set")
    match checkedRanges with
    | Except.error e => Except.error e
    | Except.ok ranges =>
      Except.ok { ds with vars := ds.vars.map (fun nv =>
        if nv.1 ∈ dataVars then
          (nv.1, (nv.2.zip (ranges nv)).map
            (fun rr => rr.1.map (fun x => x / (soft_factor + rr.2))))
        else nv) }

/-- C6 (code bug): requesting mean-centering (or normalization) with the
absent attribute name "bogus" raises an `AssertionError` whose message
is the literal placeholder string — the offending name does not occur in
it (the letter 'g' of "bogus" never occurs in the message at all); and
the absent name "" (falsy under python's `any`) raises no error at all,
leaving the data set unchanged. -/
theorem mean_center_unrecognized_message :
    meanCenterOp ⟨[(0, 0)], [("neuron_rate", [[1]])]⟩ (some ["bogus"]) none
      = Except.error ("Attributes \x7b\x7d not found in data set") ∧
    normalizeOp ⟨[(0, 0)], [("neuron_rate", [[1]])]⟩ (some ["bogus"]) none 0
      = Except.error ("Attributes \x7b\x7d not found in data set") ∧
    ('g' ∉ "Attributes \x7b\x7d not found in data set".toList) ∧
    meanCenterOp ⟨[(0, 0)], [("neuron_rate", [[1]])]⟩ (some [""]) none
      = Except.ok ⟨[(0, 0)], [("neuron_rate", [[1]])]⟩ := by
  refine ⟨rfl, rfl, by decide, rfl⟩

/-- Embeds `data_structures.py` lines 163-167: the new compound index is
the concatenation, over the requested condition ids in their given
order, of the rows of the existing `condition_time` index whose
condition id equals that id (each block keeps its original internal
order). -/
def reorderIndex (coords : List (ℤ × ℚ)) (ids : List ℤ) : List (ℤ × ℚ) :=
  ids.flatMap (fun c => coords.filter (fun p => decide (p.1 = c)))

/-- Embeds the column selection performed by `self.data_set.reindex(
condition_time=new_ct_indexes)` (`data_structures.py` line 168) on one
member row: each label of the new index picks the value at the first
position carrying that label in the old index (compound labels are
unique in a constructed data set, where each condition's time vector is
strictly increasing; xarray refuses to reindex a duplicated index).  A
label absent from the old index would be filled with NaN by xarray; the
0 returned when the lookup runs out is unreachable for the indexes
built by `reorderIndex`, whose labels all come from the old index.
`labelValue` walks the old index and the member row in parallel and
returns the row value at the first position whose label is `k`. -/
def labelValue (coords : List (ℤ × ℚ)) (row : List ℚ) (k : ℤ × ℚ) : ℚ :=
  match coords, row with
  | [], _ => 0
  | _ :: _, [] => 0
  | p :: cs, v :: vs => if p = k then v else labelValue cs vs k

def reindexRow (coords newIndex : List (ℤ × ℚ)) (row : List ℚ) : List ℚ :=
  newIndex.map (fun k => labelValue coords row k)

/-- Embeds `TrialAveragedPopulationState.reorder_conditions`
(`data_structures.py` lines 161-168).  `none` models the `ValueError`
raised by `np.vstack([])` when the requested id list is empty. -/
def reorderConditionsOp (ds : DataSet) (ids : List ℤ) : Option DataSet :=
  if ids.isEmpty then none
  else
    some { coords := reorderIndex ds.coords ids,
           vars := ds.vars.map (fun nv =>
             (nv.1, nv.2.map (reindexRow ds.coords (reorderIndex ds.coords ids)))) }

/-- One mutating operation of `TrialAveragedPopulationState` (spec
section 4.4): mean-centering, normalization, or condition
reordering/down-selection, with the arguments of the corresponding
python method. -/
inductive MutOp where
  | meanCenter (onlyVars : Option (List String)) (referenceVar : Option String)
  | normalize (onlyVars : Option (List String)) (referenceVar : Option String)
      (soft_factor : ℚ)
  | reorder (ids : List ℤ)

/-- The state of a `TrialAveragedPopulationState` instance: the private
baseline `self._raw_data_set` and the working copy `self.data_set`
(`_get_data_set`, `data_structures.py` lines 115-117, materializes the
baseline and then calls `reset_data_set` to produce the working
copy). -/
structure PopulationState where
  rawDataSet : DataSet
  dataSet : DataSet

/-- Embeds construction (`data_structures.py` lines 115-117): the
assembled data set becomes the baseline, and the working copy is a deep
copy of it. -/
def mkPopulationState (ds : DataSet) : PopulationState :=
  { rawDataSet := ds, dataSet := ds }

/-- Embeds `TrialAveragedPopulationState.reset_data_set`
(`data_structures.py` lines 170-171): `self.data_set =
self._raw_data_set.copy(deep=True)`. -/
def resetDataSet (s : PopulationState) : PopulationState :=
  { s with dataSet := s.rawDataSet }

/-- Applies one mutating method to the instance state.  Each python
method reads and writes only `self.data_set` (the working copy, a deep
copy disjoint from the baseline); a method that raises (failed assert,
`np.vstack([])`) does so before assigning, leaving both copies as they
were. -/
def applyMutation (s : PopulationState) (op : MutOp) : PopulationState :=
  match op with
  | MutOp.meanCenter ov rv =>
    match meanCenterOp s.dataSet ov rv with
    | Except.ok d => { s with dataSet := d }
    | Except.error _ => s
  | MutOp.normalize ov rv soft =>
    match normalizeOp s.dataSet ov rv soft with
    | Except.ok d => { s with dataSet := d }
    | Except.error _ => s
  | MutOp.reorder ids =>
    match reorderConditionsOp s.dataSet ids with
    | some d => { s with dataSet := d }
    | none => s

/-- C7: after any finite sequence of mutating operations the private
baseline is exactly the originally constructed data set, and
`reset_data_set` restores the working data set to that original
value. -/
theorem reset_data_set_restores_baseline (ops : List MutOp) (ds : DataSet) :
    (ops.foldl applyMutation (mkPopulationState ds)).rawDataSet = ds ∧
    (resetDataSet (ops.foldl applyMutation (mkPopulationState ds))).dataSet = ds := by
  have hraw : ∀ (l : List MutOp) (s : PopulationState),
      (l.foldl applyMutation s).rawDataSet = s.rawDataSet := by
    intro l
    induction l with
    | nil => intro s; rfl
    | cons op l ih =>
      intro s
      rw [List.foldl_cons, ih]
      cases op with
      | meanCenter ov rv =>
        simp only [applyMutation]
        cases meanCenterOp s.dataSet ov rv <;> rfl
      | normalize ov rv soft =>
        simp only [applyMutation]
        cases normalizeOp s.dataSet ov rv soft <;> rfl
      | reorder ids =>
        simp only [applyMutation]
        cases reorderConditionsOp s.dataSet ids <;> rfl
  refine ⟨hraw ops (mkPopulationState ds), ?_⟩
  show (ops.foldl applyMutation (mkPopulationState ds)).rawDataSet = ds
  exact hraw ops (mkPopulationState ds)

/-- Auxiliary: one step of the block concatenation of `reorderIndex`. -/
theorem reorderIndex_cons (coords : List (ℤ × ℚ)) (c : ℤ) (ids : List ℤ) :
    reorderIndex coords (c :: ids)
      = coords.filter (fun p => decide (p.1 = c)) ++ reorderIndex coords ids := rfl

/-- Auxiliary: the reordered index contains nothing for an unlisted
condition id. -/
theorem reorderIndex_filter_not_mem (coords : List (ℤ × ℚ)) (ids : List ℤ)
    (c : ℤ) (hc : c ∉ ids) :
    (reorderIndex coords ids).filter (fun p => decide (p.1 = c)) = [] := by
  induction ids with
  | nil => rfl
  | cons c' ids ih =>
    rw [reorderIndex_cons, List.filter_append]
    rw [List.filter_eq_nil_iff.mpr ?_, List.nil_append,
      ih (fun h => hc (List.mem_cons_of_mem _ h))]
    intro a ha
    have h2 := (List.mem_filter.mp ha).2
    simp only [decide_eq_true_eq] at h2 ⊢
    intro hac
    exact hc (by rw [← hac, h2]; exact List.mem_cons_self _ _)

/-- Auxiliary: the reordered index restricted to a listed condition id is
exactly the original index restricted to it (internal order kept). -/
theorem reorderIndex_filter_mem (coords : List (ℤ × ℚ)) (ids : List ℤ) (c : ℤ)
    (hnd : ids.Nodup) (hc : c ∈ ids) :
    (reorderIndex coords ids).filter (fun p => decide (p.1 = c))
      = coords.filter (fun p => decide (p.1 = c)) := by
  induction ids with
  | nil => simp at hc
  | cons c' ids ih =>
    rw [reorderIndex_cons, List.filter_append]
    rcases List.mem_cons.mp hc with hceq | hcmem
    · subst hceq
      rw [List.filter_eq_self.mpr (fun a ha => (List.mem_filter.mp ha).2),
        reorderIndex_filter_not_mem coords ids c (List.nodup_cons.mp hnd).1,
        List.append_nil]
    · have hne : c ≠ c' := by
        intro h
        exact (List.nodup_cons.mp hnd).1 (h ▸ hcmem)
      rw [List.filter_eq_nil_iff.mpr ?_, List.nil_append,
        ih (List.nodup_cons.mp hnd).2 hcmem]
      intro a ha
      have h2 := (List.mem_filter.mp ha).2
      simp only [decide_eq_true_eq] at h2 ⊢
      intro hac
      exact hne (by rw [← hac, h2])

/-- Auxiliary: every entry of the reordered index carries a listed
condition id. -/
theorem reorderIndex_fst_mem (coords : List (ℤ × ℚ)) (ids : List ℤ) :
    ∀ p ∈ reorderIndex coords ids, p.1 ∈ ids := by
  intro p hp
  simp only [reorderIndex, List.mem_flatMap] at hp
  rcases hp with ⟨c, hc, hpc⟩
  have h2 := (List.mem_filter.mp hpc).2
  simp only [decide_eq_true_eq] at h2
  rw [h2]
  exact hc

/-- Auxiliary: deduplicating a constant non-empty prefix followed by a
list avoiding that constant yields the constant followed by the
deduplicated suffix. -/
theorem dedup_const_append (c : ℤ) (xs ys : List ℤ) (hxs : ∀ x ∈ xs, x = c)
    (hne : xs ≠ []) (hys : c ∉ ys) : (xs ++ ys).dedup = c :: ys.dedup := by
  induction xs with
  | nil => exact absurd rfl hne
  | cons x xs ih =>
    have hx : x = c := hxs x (by simp)
    cases xs with
    | nil =>
      rw [List.singleton_append, hx, List.dedup_cons_of_not_mem hys]
    | cons y ys' =>
      have hy : y = c := hxs y (by simp)
      rw [List.cons_append, hx, List.dedup_cons_of_mem
        (show c ∈ (y :: ys') ++ ys from List.mem_append_left _
          (by rw [← hy]; exact List.mem_cons_self y ys'))]
      exact ih (fun z hz => hxs z (List.mem_cons_of_mem _ hz)) (by simp)

/-- Auxiliary: the condition ids of the reordered index, deduplicated,
are exactly the requested id list. -/
theorem reorderIndex_map_fst_dedup (coords : List (ℤ × ℚ)) (ids : List ℤ)
    (hnd : ids.Nodup) (hsub : ∀ c ∈ ids, c ∈ coords.map Prod.fst) :
    ((reorderIndex coords ids).map Prod.fst).dedup = ids := by
  induction ids with
  | nil => rfl
  | cons c ids ih =>
    rw [reorderIndex_cons, List.map_append]
    have hblock : ∀ x ∈ (coords.filter (fun p => decide (p.1 = c))).map Prod.fst,
        x = c := by
      intro x hx
      rcases List.mem_map.mp hx with ⟨p, hp, hpx⟩
      have h2 := (List.mem_filter.mp hp).2
      simp only [decide_eq_true_eq] at h2
      rw [← hpx, h2]
    have hbne : (coords.filter (fun p => decide (p.1 = c))).map Prod.fst ≠ [] := by
      rcases List.mem_map.mp (hsub c (by simp)) with ⟨p, hp, hpc⟩
      have hpf : p ∈ coords.filter (fun p => decide (p.1 = c)) :=
        List.mem_filter.mpr ⟨hp, by simp [hpc]⟩
      exact List.ne_nil_of_mem (List.mem_map_of_mem Prod.fst hpf)
    have hnotmem : c ∉ (reorderIndex coords ids).map Prod.fst := by
      intro hmem
      rcases List.mem_map.mp hmem with ⟨p, hp, hpc⟩
      have hfst := reorderIndex_fst_mem coords ids p hp
      rw [hpc] at hfst
      exact (List.nodup_cons.mp hnd).1 hfst
    rw [dedup_const_append c _ _ hblock hbne hnotmem,
      ih (List.nodup_cons.mp hnd).2 (fun c' hc' => hsub c' (by simp [hc']))]

/-- Auxiliary: the label lookup skips a non-matching head. -/
theorem labelValue_cons_ne (p : ℤ × ℚ) (v : ℚ) (cs : List (ℤ × ℚ)) (vs : List ℚ)
    (k : ℤ × ℚ) (hk : p ≠ k) :
    labelValue (p :: cs) (v :: vs) k = labelValue cs vs k := by
  simp [labelValue, hk]

/-- Auxiliary: zipping a list with its own image is mapping to pairs. -/
theorem zip_self_map (l : List (ℤ × ℚ)) (g : ℤ × ℚ → ℚ) :
    l.zip (l.map g) = l.map (fun a => (a, g a)) := by
  induction l with
  | nil => rfl
  | cons x xs ih => simp [ih]

/-- Auxiliary: over a duplicate-free index of matching length, pairing the
labels of one condition with their looked-up values reproduces the
original label/value pairs of that condition. -/
theorem filter_map_labelValue (coords : List (ℤ × ℚ)) (row : List ℚ) (c : ℤ)
    (hnd : coords.Nodup) (hlen : row.length = coords.length) :
    ((coords.filter (fun p => decide (p.1 = c))).map
      (fun k => (k, labelValue coords row k)))
    = (coords.zip row).filter (fun p => decide (p.1.1 = c)) := by
  induction coords generalizing row with
  | nil => rfl
  | cons p cs ih =>
    cases row with
    | nil => simp at hlen
    | cons v vs =>
      have hnotin : p ∉ cs := (List.nodup_cons.mp hnd).1
      have hmapcong : ∀ k ∈ cs.filter (fun p' => decide (p'.1 = c)),
          (k, labelValue (p :: cs) (v :: vs) k) = (k, labelValue cs vs k) := by
        intro k hk
        have hkcs : k ∈ cs := (List.mem_filter.mp hk).1
        have hpk : p ≠ k := fun h => hnotin (h ▸ hkcs)
        rw [labelValue_cons_ne p v cs vs k hpk]
      have hihs := ih vs (List.nodup_cons.mp hnd).2 (by simpa using hlen)
      by_cases hp : p.1 = c
      · rw [List.filter_cons_of_pos (by simp [hp]), List.map_cons]
        have hv : labelValue (p :: cs) (v :: vs) p = v := by simp [labelValue]
        rw [hv, List.map_congr_left hmapcong, hihs, List.zip_cons_cons,
          List.filter_cons_of_pos (by simp [hp])]
      · rw [List.filter_cons_of_neg (by simp [hp]),
          List.map_congr_left hmapcong, hihs, List.zip_cons_cons,
          List.filter_cons_of_neg (by simp [hp])]

/-- C8 counterexample to the claim as stated over *every* subset list: the
empty list is a subset of the present conditions, but
`reorder_conditions([])` raises `ValueError` in `np.vstack([])`
(modelled `none`) instead of producing a data set with no conditions. -/
theorem reorder_conditions_empty_cex :
    reorderConditionsOp ⟨[(0, 0)], [("rate", [[1]])]⟩ [] = none := rfl

/-- C8 (amended to non-empty lists): for every non-empty duplicate-free
list of condition ids all present in the data set, `reorder_conditions`
succeeds and leaves exactly the listed conditions in the listed order
(dedup of the resulting id sequence is the list), drops all unlisted
conditions, keeps each retained condition's columns exactly as in the
original (same internal time order), and reindexes every member row so
that each retained condition's label/value pairs are unchanged. -/
theorem reorder_conditions_subset (ds : DataSet) (ids : List ℤ)
    (hne : ids ≠ []) (hnodup : ids.Nodup)
    (hsub : ∀ c ∈ ids, c ∈ ds.coords.map Prod.fst)
    (hcoords : ds.coords.Nodup) :
    ∃ ds', reorderConditionsOp ds ids = some ds' ∧
      (∀ p ∈ ds'.coords, p.1 ∈ ids) ∧
      ((ds'.coords.map Prod.fst).dedup = ids) ∧
      (∀ c ∈ ids, ds'.coords.filter (fun p => decide (p.1 = c))
        = ds.coords.filter (fun p => decide (p.1 = c))) ∧
      (ds'.vars = ds.vars.map (fun nv =>
        (nv.1, nv.2.map (reindexRow ds.coords ds'.coords)))) ∧
      (∀ row : List ℚ, row.length = ds.coords.length → ∀ c ∈ ids,
        (ds'.coords.zip (reindexRow ds.coords ds'.coords row)).filter
          (fun p => decide (p.1.1 = c))
        = (ds.coords.zip row).filter (fun p => decide (p.1.1 = c))) := by
  refine ⟨{ coords := reorderIndex ds.coords ids,
            vars := ds.vars.map (fun nv =>
              (nv.1, nv.2.map (reindexRow ds.coords (reorderIndex ds.coords ids)))) },
    ?_, ?_, ?_, ?_, rfl, ?_⟩
  · unfold reorderConditionsOp
    rw [if_neg (by simpa using hne)]
  · exact reorderIndex_fst_mem ds.coords ids
  · exact reorderIndex_map_fst_dedup ds.coords ids hnodup hsub
  · intro c hc
    exact reorderIndex_filter_mem ds.coords ids c hnodup hc
  · intro row hlen c hc
    show ((reorderIndex ds.coords ids).zip
        ((reorderIndex ds.coords ids).map (fun k => labelValue ds.coords row k))).filter
        (fun p => decide (p.1.1 = c))
      = (ds.coords.zip row).filter (fun p => decide (p.1.1 = c))
    rw [zip_self_map, List.filter_map]
    have hcong : List.filter
        ((fun p : (ℤ × ℚ) × ℚ => decide (p.1.1 = c))
          ∘ (fun a => (a, labelValue ds.coords row a))) (reorderIndex ds.coords ids)
        = List.filter (fun p => decide (p.1 = c)) (reorderIndex ds.coords ids) :=
      List.filter_congr (fun a _ => rfl)
    rw [hcong, reorderIndex_filter_mem ds.coords ids c hnodup hc]
    exact filter_map_labelValue ds.coords row c hcoords hlen

/-- Witness for C8: a data set with two conditions (condition 1 with two
samples, condition 2 with one) reordered by the list [2, 1]. -/
theorem reorder_conditions_subset_witness :
    ∃ ds', reorderConditionsOp ⟨[(1, 0), (1, 1), (2, 0)], [("rate", [[10, 11, 12]])]⟩
        [2, 1] = some ds' ∧
      (∀ p ∈ ds'.coords, p.1 ∈ ([2, 1] : List ℤ)) ∧
      ((ds'.coords.map Prod.fst).dedup = [2, 1]) ∧
      (∀ c ∈ ([2, 1] : List ℤ), ds'.coords.filter (fun p => decide (p.1 = c))
        = (DataSet.coords ⟨[(1, 0), (1, 1), (2, 0)], [("rate", [[10, 11, 12]])]⟩).filter
            (fun p => decide (p.1 = c))) ∧
      (ds'.vars = (DataSet.vars ⟨[(1, 0), (1, 1), (2, 0)], [("rate", [[10, 11, 12]])]⟩).map
        (fun nv => (nv.1, nv.2.map (reindexRow
          (DataSet.coords ⟨[(1, 0), (1, 1), (2, 0)], [("rate", [[10, 11, 12]])]⟩)
          ds'.coords)))) ∧
      (∀ row : List ℚ,
        row.length = (DataSet.coords ⟨[(1, 0), (1, 1), (2, 0)], [("rate", [[10, 11, 12]])]⟩).length
        → ∀ c ∈ ([2, 1] : List ℤ),
        (ds'.coords.zip (reindexRow
            (DataSet.coords ⟨[(1, 0), (1, 1), (2, 0)], [("rate", [[10, 11, 12]])]⟩)
            ds'.coords row)).filter (fun p => decide (p.1.1 = c))
        = ((DataSet.coords ⟨[(1, 0), (1, 1), (2, 0)], [("rate", [[10, 11, 12]])]⟩).zip
            row).filter (fun p => decide (p.1.1 = c))) :=
  reorder_conditions_subset ⟨[(1, 0), (1, 1), (2, 0)], [("rate", [[10, 11, 12]])]⟩
    [2, 1] (by simp) (by decide)
    (by intro c hc; fin_cases hc <;> decide) (by decide)

/-- Embeds the per-cell content of the `array_data` dict in
`TrialAveragedPopulationState._get_data_set` (`data_structures.py` lines
97-103): every `(member, condition)` key starts as the explicit
placeholder `None` (modelled `none`) and each record for that key
overwrites it, so the last record wins; a key with no record keeps
`none`.  A record is `(member id, condition id, attribute values)`. -/
def cellValue (records : List (ℤ × ℤ × List ℚ)) (m c : ℤ) : Option (List ℚ) :=
  ((records.filter (fun r => decide (r.1 = m) && decide (r.2.1 = c))).getLast?).map
    (fun r => r.2.2)

/-- Embeds one member's assembled row (`data_structures.py` lines
105-107): the dict values are laid out member-major, so row `m` is
`np.hstack` over the conditions in order; an array cell contributes its
values, while a `None` cell contributes the single placeholder element
`np.hstack` makes of it. -/
def memberRow (conds : List ℤ) (records : List (ℤ × ℤ × List ℚ)) (m : ℤ) :
    List (Option ℚ) :=
  conds.flatMap (fun c =>
    match cellValue records m c with
    | some vs => vs.map some
    | none => [none])

/-- Embeds the 2-D assembly of one attribute in `_get_data_set`
(`data_structures.py` lines 97-107).  `none` models a raised
`ValueError`: duplicate member or condition keys collapse dict entries
and break the `reshape`; a record whose key is outside the
member/condition product adds a dict entry and breaks the `reshape`; an
empty condition list makes `np.hstack` of an empty cell sequence raise;
an empty member list makes `np.vstack([])` raise; and `np.vstack`
requires all assembled rows to have equal length. -/
def assembleAttr (members conds : List ℤ) (records : List (ℤ × ℤ × List ℚ)) :
    Option (List (List (Option ℚ))) :=
  if decide members.Nodup && decide conds.Nodup && !conds.isEmpty
      && records.all (fun r => decide (r.1 ∈ members) && decide (r.2.1 ∈ conds)) then
    match (members.map (fun m => memberRow conds records m)).head? with
    | none => none
    | some r0 =>
      if (members.map (fun m => memberRow conds records m)).all
          (fun r => decide (r.length = r0.length)) then
        some (members.map (fun m => memberRow conds records m))
      else none
  else none

/-- C9 counterexample to the claim as stated: member 1 has no record for
condition 1 (the placeholder stays `none`), but assembly does not
complete — member 0's row has 4 entries while member 1's has 3 (the
placeholder is a single element where two values stand), so `np.vstack`
raises `ValueError` (modelled `none`). -/
theorem assemble_missing_combination_cex :
    cellValue [(0, 0, [1, 2]), (0, 1, [3, 4]), (1, 0, [5, 6])] 1 1 = none ∧
    assembleAttr [0, 1] [0, 1] [(0, 0, [1, 2]), (0, 1, [3, 4]), (1, 0, [5, 6])]
      = none := by
  exact ⟨rfl, rfl⟩

/-- Auxiliary: a cell of member `m` sees only member `m`'s records. -/
theorem cellValue_filter_member (records : List (ℤ × ℤ × List ℚ)) (m c : ℤ) :
    cellValue (records.filter (fun r => decide (r.1 = m))) m c
      = cellValue records m c := by
  unfold cellValue
  rw [List.filter_filter]
  have hfeq : List.filter (fun a : ℤ × ℤ × List ℚ =>
      (decide (a.1 = m) && decide (a.2.1 = c)) && decide (a.1 = m)) records
    = List.filter (fun r : ℤ × ℤ × List ℚ =>
      decide (r.1 = m) && decide (r.2.1 = c)) records :=
    List.filter_congr (fun r _ => by
      by_cases h1 : r.1 = m <;> by_cases h2 : r.2.1 = c <;> simp [h1, h2])
  rw [hfeq]

/-- C9 (amended): a `(member, condition)` combination with no source
record keeps the explicit `None` placeholder (never a zero) in its cell,
that placeholder lands in the member's assembled row, each member's row
is computed from that member's records alone (no interpolation across
members), and assembly completes exactly when it returns the rows built
this way — it fails (`ValueError`) whenever the rows' lengths
disagree. -/
theorem assemble_placeholder_rows (members conds : List ℤ)
    (records : List (ℤ × ℤ × List ℚ)) (m c : ℤ)
    (hm : m ∈ members) (hc : c ∈ conds)
    (hmiss : ∀ r ∈ records, ¬(r.1 = m ∧ r.2.1 = c)) :
    cellValue records m c = none ∧
    none ∈ memberRow conds records m ∧
    memberRow conds records m
      = memberRow conds (records.filter (fun r => decide (r.1 = m))) m ∧
    (∀ rows, assembleAttr members conds records = some rows →
      rows = members.map (fun m' => memberRow conds records m')) := by
  have hcell : cellValue records m c = none := by
    unfold cellValue
    rw [List.filter_eq_nil_iff.mpr ?_]
    · rfl
    · intro r hr
      have hnr := hmiss r hr
      simp only [Bool.and_eq_true, decide_eq_true_eq]
      exact fun h => hnr h
  refine ⟨hcell, ?_, ?_, ?_⟩
  · unfold memberRow
    rw [List.mem_flatMap]
    refine ⟨c, hc, ?_⟩
    rw [hcell]
    simp
  · unfold memberRow
    have hfun : (fun c' => match cellValue records m c' with
        | some vs => vs.map some
        | none => [none])
      = (fun c' => match cellValue (records.filter (fun r => decide (r.1 = m))) m c' with
        | some vs => vs.map some
        | none => [none]) := by
      funext c'
      rw [cellValue_filter_member]
    rw [hfun]
  · intro rows hrows
    unfold assembleAttr at hrows
    split at hrows
    · split at hrows
      · exact absurd hrows (by simp)
      · split at hrows
        · exact (Option.some_inj.mp hrows).symm
        · exact absurd hrows (by simp)
    · exact absurd hrows (by simp)

/-- Witness for C9: two members, two conditions, member 1 missing
condition 1; here the rows happen to align (each cell holds one value),
so assembly completes with the placeholder in place. -/
theorem assemble_placeholder_rows_witness :
    cellValue [(0, 0, [1]), (0, 1, [2]), (1, 0, [3])] 1 1 = none ∧
    none ∈ memberRow [0, 1] [(0, 0, [1]), (0, 1, [2]), (1, 0, [3])] 1 ∧
    memberRow [0, 1] [(0, 0, [1]), (0, 1, [2]), (1, 0, [3])] 1
      = memberRow [0, 1] (([(0, 0, [1]), (0, 1, [2]), (1, 0, [3])] :
          List (ℤ × ℤ × List ℚ)).filter (fun r => decide (r.1 = 1))) 1 ∧
    (∀ rows, assembleAttr [0, 1] [0, 1] [(0, 0, [1]), (0, 1, [2]), (1, 0, [3])]
        = some rows →
      rows = ([0, 1] : List ℤ).map
        (fun m' => memberRow [0, 1] [(0, 0, [1]), (0, 1, [2]), (1, 0, [3])] m')) :=
  assemble_placeholder_rows [0, 1] [0, 1] [(0, 0, [1]), (0, 1, [2]), (1, 0, [3])]
    1 1 (by simp) (by simp) (by decide)

/-- The value domain of a numpy float operation that can leave the finite
range: an exact finite rational, or one of the non-finite IEEE results
`nan`, `inf`, `-inf`. -/
inductive NpFloat where
  | finite (q : ℚ)
  | nan
  | posInf
  | negInf
deriving DecidableEq

/-- True exactly on the finite values (`np.isfinite`). -/
def NpFloat.isFinite : NpFloat → Bool
  | NpFloat.finite _ => true
  | _ => false

/-- Embeds IEEE-754 division of a finite float by a finite float as numpy
performs it (emitting only a `RuntimeWarning`, never raising): a nonzero
value divided by zero gives a signed infinity, zero divided by zero gives
`nan`, and otherwise the quotient is finite. -/
def npDiv (q d : ℚ) : NpFloat :=
  if d = 0 then
    (if q = 0 then NpFloat.nan else if 0 < q then NpFloat.posInf else NpFloat.negInf)
  else NpFloat.finite (q / d)

/-- Embeds one member row of the `normalize` update
(`data_structures.py` lines 152-159): `self.data_set[var] /=
(soft_factor + data_ranges[var])` with `data_ranges` the per-member
`np.ptp` over the condition-time axis — here with the IEEE division
semantics numpy actually uses, which `normalizeOp`'s exact rational
division abstracts away. -/
def normalizeRowNp (row : List ℚ) (soft_factor : ℚ) : List NpFloat :=
  row.map (fun x => npDiv x (soft_factor + rowPtp row))

/-- Auxiliary: folding `max` over a constant list from that constant
stays put. -/
theorem foldl_max_const (xs : List ℚ) (c : ℚ) (h : ∀ x ∈ xs, x = c) :
    xs.foldl max c = c := by
  induction xs with
  | nil => rfl
  | cons x xs ih =>
    rw [List.foldl_cons, h x (by simp), max_self]
    exact ih (fun y hy => h y (by simp [hy]))

/-- Auxiliary: folding `min` over a constant list from that constant
stays put. -/
theorem foldl_min_const (xs : List ℚ) (c : ℚ) (h : ∀ x ∈ xs, x = c) :
    xs.foldl min c = c := by
  induction xs with
  | nil => rfl
  | cons x xs ih =>
    rw [List.foldl_cons, h x (by simp), min_self]
    exact ih (fun y hy => h y (by simp [hy]))

/-- Auxiliary: the peak-to-peak range of a non-empty constant row is
zero. -/
theorem rowPtp_const (row : List ℚ) (c : ℚ) (hne : row ≠ [])
    (h : ∀ x ∈ row, x = c) : rowPtp row = 0 := by
  match row with
  | [] => exact absurd rfl hne
  | x :: xs =>
    have hx : x = c := h x (by simp)
    have hxs : ∀ y ∈ xs, y = c := fun y hy => h y (by simp [hy])
    have h1 : listMax (x :: xs) = xs.foldl max x := rfl
    have h2 : listMin (x :: xs) = xs.foldl min x := rfl
    unfold rowPtp
    rw [h1, h2, hx, foldl_max_const xs c hxs, foldl_min_const xs c hxs, sub_self]

/-- C10: `normalize` with `soft_factor = 0` divides by the unguarded
cross-condition peak-to-peak range; for a member whose attribute row is
constant the range is 0, and every resulting entry is non-finite
(`inf`, `-inf` or `nan`) — no error is raised (the embedding is a total
function; numpy only emits a `RuntimeWarning`). -/
theorem normalize_constant_member_nonfinite (row : List ℚ) (c : ℚ)
    (hne : row ≠ []) (hconst : ∀ x ∈ row, x = c) :
    rowPtp row = 0 ∧
    ∀ v ∈ normalizeRowNp row 0, v.isFinite = false := by
  have hptp := rowPtp_const row c hne hconst
  refine ⟨hptp, ?_⟩
  intro v hv
  unfold normalizeRowNp at hv
  rw [hptp, add_zero] at hv
  rcases List.mem_map.mp hv with ⟨x, _, hxv⟩
  rw [← hxv]
  unfold npDiv
  rw [if_pos rfl]
  by_cases h0 : x = 0
  · rw [if_pos h0]; rfl
  · rw [if_neg h0]
    by_cases hp : 0 < x
    · rw [if_pos hp]; rfl
    · rw [if_neg hp]; rfl

/-- Witness for C10: the constant row [2, 2] divides by range 0 and both
entries come out as positive infinity. -/
theorem normalize_constant_member_nonfinite_witness :
    (rowPtp [2, 2] = 0 ∧ ∀ v ∈ normalizeRowNp [2, 2] 0, v.isFinite = false) ∧
    normalizeRowNp [2, 2] 0 = [NpFloat.posInf, NpFloat.posInf] :=
  ⟨normalize_constant_member_nonfinite [2, 2] 2 (by simp)
      (by intro x hx; fin_cases hx <;> rfl),
    by norm_num [normalizeRowNp, rowPtp, listMax, listMin, npDiv]⟩
